import Mathlib

/-!
Verification of the Schnorr-style ring signature implementation
(`github.com/t-bast/ring-signatures`).

The Go source is shallowly embedded as follows:

* Byte strings (`[]byte`) become `List Nat` (`Bytes`), read big-endian by
  `bytesToNat`; `big.Int.Bytes()` (minimal big-endian magnitude) becomes
  `natToBytes`.
* The P-384 curve group has prime order `N` and cofactor 1, so it is cyclic
  and generated by `G`; we model a curve point by its discrete logarithm,
  i.e. `ZMod N`, with `G = 1`, point addition = `+`, and scalar
  multiplication by big-endian bytes = multiplication by the encoded value
  (Go's `ScalarBaseMult`/`ScalarMult` reduce the scalar implicitly, which
  is exactly multiplication in `ZMod N`).
* `elliptic.Marshal` becomes `encodePoint` (a tag byte followed by a
  fixed-width big-endian encoding of the point, injective like SEC1);
  `elliptic.Unmarshal` becomes `decodePoint`, returning `none` on malformed
  input.  The Go code never nil-checks `Unmarshal`'s result and its curve
  operations crash on nil coordinates; the model makes that outcome an
  explicit error value (`SignError.invalidPoint` in `Sign`, `none` in
  `Verify`).
* SHA-256 is kept abstract: `Sign` and `Verify` take the hash as an
  explicit parameter `hash : Bytes → Bytes` (the source instantiates it
  with SHA-256, whose output is a nonempty 32-byte string).
* The RNG (`io.Reader` plus `crand.Int`) is modelled by a list of draws;
  each call of `crand.Int(rand, N)` consumes one element `d` and yields
  `d % N`; an exhausted list models a reader error.
* Go's `for` loop in `Sign` is embedded with a fuel parameter (`signLoop`);
  `Sign` supplies fuel `len(ringKeys)`, which is proven sufficient.
-/

set_option maxRecDepth 4000

/-- Byte strings (`[]byte` in Go).  A `nil` slice and an empty slice are both
`[]`. -/
abbrev Bytes := List Nat

/-- Big-endian interpretation of a byte string, `big.Int.SetBytes`. -/
def bytesToNat (b : Bytes) : Nat :=
  b.foldl (fun acc d => 256 * acc + d) 0

/-- Helper for `natToBytes`; the first argument is fuel (structural recursion
so that concrete runs evaluate in the kernel). -/
def natToBytesAux : Nat → Nat → Bytes
  | 0, _ => []
  | fuel + 1, n => if n = 0 then [] else natToBytesAux fuel (n / 256) ++ [n % 256]

/-- Minimal big-endian byte encoding of a nonnegative integer,
`big.Int.Bytes` (which drops the sign and encodes the absolute value; zero
encodes as the empty string). -/
def natToBytes (n : Nat) : Bytes := natToBytesAux n n

/-- Order of the P-384 base-point group (`curve.Params().N`). -/
def N : Nat :=
  0xffffffffffffffffffffffffffffffffffffffffffffffffc7634d81f4372ddf581a0db248b0a77aecec196accc52973

instance : NeZero N := ⟨by decide⟩

/-- A point of the P-384 group, represented by its discrete logarithm with
respect to the generator (the group is cyclic of prime order `N` with
cofactor 1, so this representation is faithful). -/
abbrev Point := ZMod N

/-- The group generator `G` (discrete logarithm 1). -/
def G : Point := 1

/-- Model of `curve.ScalarBaseMult(k)`: big-endian bytes times the generator. -/
def scalarBaseMult (k : Bytes) : Point := (bytesToNat k : ZMod N)

/-- Model of `curve.ScalarMult(P, k)`: big-endian bytes times a point. -/
def scalarMult (P : Point) (k : Bytes) : Point := (bytesToNat k : ZMod N) * P

/-- Model of `curve.Add(P, Q)`. -/
def pointAdd (P Q : Point) : Point := P + Q

/-- Fixed-width big-endian byte encoding (width `l`). -/
def natToBytesFixed : Nat → Nat → Bytes
  | 0, _ => []
  | l + 1, n => natToBytesFixed l (n / 256) ++ [n % 256]

/-- Model of `elliptic.Marshal`: serialize a point (a `0x04` tag byte followed by a
fixed-width big-endian body, injective like the SEC1 uncompressed form). -/
def encodePoint (P : Point) : Bytes := 4 :: natToBytesFixed 48 P.val

/-- Model of `elliptic.Unmarshal`: parse a point, `none` on malformed bytes (wrong
length, wrong tag, or a body that does not denote a group element). -/
def decodePoint (b : Bytes) : Option Point :=
  match b with
  | 4 :: rest =>
    if rest.length = 48 ∧ bytesToNat rest < N then some (bytesToNat rest : ZMod N)
    else none
  | _ => none

-- sanity examples (roundtrips at small concrete values)
example : bytesToNat (natToBytes 5) = 5 := by decide
example : bytesToNat [1, 0] = 256 := by decide
example : decodePoint (encodePoint (7 : ZMod N)) = some 7 := by decide
example : bytesToNat (natToBytes N) = N := by decide
example : ((N - 2) % N : Nat) = N - 2 := by decide

/-- Errors surfaced by `Sign`.  The first three are the named sentinel
errors of the source; `rngFailure` stands for a propagated RNG/reader
error, `signatureFailed` for `errors.New("could not produce ring
signature")`.  `invalidPoint` and `fuelExhausted` are model artifacts:
`invalidPoint` marks the crash the Go code runs into when a ring key does
not unmarshal (the source has no nil check), and `fuelExhausted` marks
running out of loop fuel, which is proven unreachable for the fuel `Sign`
supplies. -/
inductive SignError where
  | emptyMessage
  | invalidSignerIndex
  | ringTooSmall
  | rngFailure
  | signatureFailed
  | invalidPoint
  | fuelExhausted
deriving DecidableEq, Repr

/-- The `Signature` struct: the ring of serialized public keys, the initial
challenge `e`, and the per-member scalars `s`. -/
structure Signature where
  ring : List Bytes
  e : Bytes
  s : List Bytes
deriving DecidableEq, Repr

instance : DecidableEq (Except SignError Signature) := fun a b =>
  match a, b with
  | .error e1, .error e2 => decidable_of_iff (e1 = e2) (by simp)
  | .ok s1, .ok s2 => decidable_of_iff (s1 = s2) (by simp)
  | .error _, .ok _ => isFalse (by simp)
  | .ok _, .error _ => isFalse (by simp)

/-- Model of `randomParam`: repeatedly draws `crand.Int(rand, N)` until the result is
positive and returns its big-endian bytes.  The reader is modelled as a
list of draws, each reduced mod `N`; an exhausted list models a reader
error (`none`). -/
def randomParam : List Nat → Option (Bytes × List Nat)
  | [] => none
  | d :: rest =>
    if 1 ≤ d % N then some (natToBytes (d % N), rest) else randomParam rest

/-- State threaded through the ring-iteration loop of `Sign`: the arrays
`es` and `ss`, and the remaining RNG draws. -/
abbrev SignState := List Bytes × List Bytes × List Nat

/-- One iteration of the ring loop of `Sign` at index `i`: draw `s(i)`,
compute `T = s(i)·G + e(i)·P(i)` and store `e((i+1) % r) = H(m ‖ T)`.
`invalidPoint` models the crash on a ring key that does not unmarshal. -/
def ringStep (hash : Bytes → Bytes) (message : Bytes) (ringKeys : List Bytes)
    (r i : Nat) (es ss : List Bytes) (draws : List Nat) :
    Except SignError SignState :=
  match randomParam draws with
  | none => .error .rngFailure
  | some (s, draws') =>
    match decodePoint (ringKeys.getD i []) with
    | none => .error .invalidPoint
    | some P =>
      .ok (es.set ((i + 1) % r)
            (hash (message ++ encodePoint
              (pointAdd (scalarBaseMult s) (scalarMult P (es.getD i []))))),
           ss.set i s, draws')

/-- The ring-iteration loop of `Sign`
(`for i := (signerIndex+1)%r; i != signerIndex; i = (i+1)%r`), embedded with
fuel; `Sign` supplies fuel `r`, which is proven sufficient. -/
def signLoop (hash : Bytes → Bytes) (message : Bytes) (ringKeys : List Bytes)
    (r idx : Nat) : Nat → Nat → SignState → Except SignError SignState
  | 0, _, _ => .error .fuelExhausted
  | fuel + 1, i, (es, ss, draws) =>
    if i = idx then .ok (es, ss, draws)
    else
      match ringStep hash message ringKeys r i es ss draws with
      | .error e => .error e
      | .ok st' => signLoop hash message ringKeys r idx fuel ((i + 1) % r) st'

/-- The same loop body folded over an explicit list of indices; proven equal
to `signLoop` on the index sequence the loop actually visits. -/
def loopFold (hash : Bytes → Bytes) (message : Bytes) (ringKeys : List Bytes)
    (r : Nat) : List Nat → SignState → Except SignError SignState
  | [], st => .ok st
  | i :: rest, (es, ss, draws) =>
    match ringStep hash message ringKeys r i es ss draws with
    | .error e => .error e
    | .ok st' => loopFold hash message ringKeys r rest st'

/-- The index sequence `r+1, r+2, …, r-1` (wrapping mod `r`, `r-1` entries)
that the ring loop is supposed to visit, starting after the signer `idx`. -/
def visits (r idx : Nat) : List Nat :=
  (List.range (r - 1)).map fun u => (idx + 1 + u) % r

/-- The ring-closing arithmetic of `Sign` on `big.Int` values: compute
`s = k − e·x` as a signed integer; if negative, add `e·N` once; fail with
`signatureFailed` when the adjusted value is exactly zero. -/
def closeRing (k e x : Nat) : Except SignError Int :=
  let s : Int := (k : Int) - (e : Int) * (x : Int)
  if s < 0 then
    let s' := s + (e : Int) * (N : Int)
    if s' = 0 then .error .signatureFailed else .ok s'
  else .ok s

/-- Model of `PrivateKey.Sign`: create a ring signature.  `sk` is the private key
bytes, `draws` models the RNG, `signerIndex` is a Go `int` (may be
negative).  The emitted closing scalar is `valS.Bytes()`, i.e. the
big-endian encoding of the absolute value (`Int.natAbs`). -/
def Sign (hash : Bytes → Bytes) (sk : Bytes) (draws : List Nat)
    (message : Bytes) (ringKeys : List Bytes) (signerIndex : Int) :
    Except SignError Signature :=
  if message.length = 0 then .error .emptyMessage
  else if signerIndex < 0 ∨ (ringKeys.length : Int) ≤ signerIndex then
    .error .invalidSignerIndex
  else if ringKeys.length < 2 then .error .ringTooSmall
  else
    match randomParam draws with
    | none => .error .rngFailure
    | some (k, draws1) =>
      match signLoop hash message ringKeys ringKeys.length signerIndex.toNat
          ringKeys.length ((signerIndex.toNat + 1) % ringKeys.length)
          ((List.replicate ringKeys.length ([] : Bytes)).set
            ((signerIndex.toNat + 1) % ringKeys.length)
            (hash (message ++ encodePoint (scalarBaseMult k))),
           List.replicate ringKeys.length ([] : Bytes), draws1) with
      | .error e => .error e
      | .ok (es, ss, _) =>
        match closeRing (bytesToNat k) (bytesToNat (es.getD signerIndex.toNat []))
            (bytesToNat sk) with
        | .error e => .error e
        | .ok v =>
          .ok { ring := ringKeys, e := es.getD 0 [],
                s := ss.set signerIndex.toNat (natToBytes v.natAbs) }

/-- The verification walk: `ee = H(m ‖ s(i)·G + ee·P(i))` over the pairs
`(s(i), ring(i))`.  Returns `none` on a ring key that does not unmarshal,
modelling the crash of the unchecked `Unmarshal` in the source. -/
def verifyLoop (hash : Bytes → Bytes) (message : Bytes) :
    List (Bytes × Bytes) → Bytes → Option Bytes
  | [], e => some e
  | (si, ki) :: rest, e =>
    match decodePoint ki with
    | none => none
    | some P =>
      verifyLoop hash message rest
        (hash (message ++ encodePoint
          (pointAdd (scalarBaseMult si) (scalarMult P e))))

/-- Model of `Signature.Verify`: the input `Option Signature` models the nil-able
receiver pointer; the result `none` models the crash on a ring key that
does not unmarshal (the source has no nil check after `Unmarshal`). -/
def Verify (hash : Bytes → Bytes) (sig : Option Signature) (message : Bytes) :
    Option Bool :=
  match sig with
  | none => some false
  | some sig =>
    if sig.ring.length < 2 then some false
    else if sig.s.length ≠ sig.ring.length then some false
    else if sig.e.length = 0 then some false
    else
      match verifyLoop hash message (sig.s.zip sig.ring) sig.e with
      | none => none
      | some e => some (e = sig.e)

-- sanity: a full end-to-end run with a constant hash, ring size 2
example :
    (Sign (fun _ => [2]) (natToBytes 5) [3, 4] [1]
      [encodePoint 5, encodePoint 7] 0).toOption =
    some { ring := [encodePoint 5, encodePoint 7], e := [2],
           s := [natToBytes (2 * N - 7), natToBytes 4] } := by decide

example :
    Verify (fun _ => [2])
      (some { ring := [encodePoint 5, encodePoint 7], e := [2],
              s := [natToBytes (2 * N - 7), natToBytes 4] }) [1] =
    some true := by decide

/-- JSON values, as far as the signature codec needs them.  A Go `[]byte`
is serialized as a base64 string; since standard base64 is a bijection
between byte strings and its image, that leaf is modelled as the byte
string itself (`bytes`). -/
inductive Json where
  | null
  | bytes (b : Bytes)
  | arr (items : List Json)
  | obj (fields : List (String × Json))

/-- Decode a `[]byte` struct field from a JSON value (`encoding/json`
semantics: `null` yields a nil slice, a base64 string yields its bytes,
anything else is an error). -/
def jsonBytes : Json → Option Bytes
  | .null => some []
  | .bytes b => some b
  | _ => none

/-- Decode a `[][]byte` (or `[]PublicKey`) struct field from a JSON value. -/
def jsonBytesList : Json → Option (List Bytes)
  | .null => some []
  | .arr items => items.mapM jsonBytes
  | _ => none

/-- Decode a possibly missing `[]byte` field: a missing key leaves the zero
value (nil slice) — `encoding/json` does not report missing fields. -/
def fieldBytes : Option Json → Option Bytes
  | none => some []
  | some j => jsonBytes j

/-- Decode a possibly missing `[][]byte` field. -/
def fieldBytesList : Option Json → Option (List Bytes)
  | none => some []
  | some j => jsonBytesList j

/-- Model of `Signature.Marshal`: `json.Marshal` of the record
`{R: sig.ring, S: sig.s, E: sig.e}`. -/
def Marshal (sig : Signature) : Json :=
  .obj [("R", .arr (sig.ring.map .bytes)),
        ("S", .arr (sig.s.map .bytes)),
        ("E", .bytes sig.e)]

/-- Model of `Signature.Unmarshal`: `json.Unmarshal` into the record
`{R: [][]byte, S: [][]byte, E: []byte}`; `none` is a decode error.
Missing fields are left at their zero value, per `encoding/json`. -/
def Unmarshal (j : Json) : Option Signature :=
  match j with
  | .obj fields =>
    match fieldBytesList (fields.lookup "R"), fieldBytesList (fields.lookup "S"),
        fieldBytes (fields.lookup "E") with
    | some r, some s, some e => some { ring := r, e := e, s := s }
    | _, _, _ => none
  | _ => none

/-- Model of `Signature.Encode`: base64 of the marshalled bytes.  Standard base64 of
the rendered JSON text is a bijection onto its image and is inverted by
`Decode`, so the text layer is collapsed and `Encode` is the marshalled
record itself. -/
def Encode (sig : Signature) : Json := Marshal sig

/-- Model of `Signature.Decode`: base64-decode then `Unmarshal` (text layer
collapsed, see `Encode`). -/
def Decode (j : Json) : Option Signature := Unmarshal j

-- sanity: codec round-trip on a signature with empty and high-bit bytes
example :
    Unmarshal (Marshal { ring := [[], [255, 0]], e := [128], s := [[], [7]] }) =
    some { ring := [[], [255, 0]], e := [128], s := [[], [7]] } := by rfl

-- sanity: a record missing the E field decodes without error
example :
    Unmarshal (.obj [("R", .arr [.bytes [1], .bytes [2]]),
                     ("S", .arr [.bytes [3], .bytes [4]])]) =
    some { ring := [[1], [2]], e := [], s := [[3], [4]] } := by rfl

/-! ### Byte-encoding lemmas -/

theorem bytesToNat_append_singleton (l : Bytes) (b : Nat) :
    bytesToNat (l ++ [b]) = 256 * bytesToNat l + b := by
  simp [bytesToNat, List.foldl_append]

theorem bytesToNat_natToBytesAux (fuel n : Nat) (h : n ≤ fuel) :
    bytesToNat (natToBytesAux fuel n) = n := by
  induction fuel generalizing n with
  | zero => interval_cases n; simp [natToBytesAux, bytesToNat]
  | succ fuel ih =>
    by_cases hn : n = 0
    · simp [natToBytesAux, hn, bytesToNat]
    · rw [natToBytesAux, if_neg hn, bytesToNat_append_singleton, ih]
      · omega
      · have := Nat.div_lt_self (Nat.pos_of_ne_zero hn) (by norm_num : 1 < 256)
        omega

/-- Round-trip `big.Int.SetBytes(v.Bytes()) = v` for nonnegative `v`. -/
theorem bytesToNat_natToBytes (n : Nat) : bytesToNat (natToBytes n) = n :=
  bytesToNat_natToBytesAux n n le_rfl

theorem natToBytesFixed_length (l n : Nat) : (natToBytesFixed l n).length = l := by
  induction l generalizing n with
  | zero => rfl
  | succ l ih => simp [natToBytesFixed, ih]

theorem bytesToNat_natToBytesFixed (l n : Nat) (h : n < 256 ^ l) :
    bytesToNat (natToBytesFixed l n) = n := by
  induction l generalizing n with
  | zero => simp at h; simp [natToBytesFixed, bytesToNat, h]
  | succ l ih =>
    rw [natToBytesFixed, bytesToNat_append_singleton, ih]
    · omega
    · rw [pow_succ] at h
      exact Nat.div_lt_of_lt_mul (by omega)

theorem N_lt_pow : N < 256 ^ 48 := by decide

/-- Decoding inverts encoding: `decodePoint` inverts `encodePoint`. -/
theorem decodePoint_encodePoint (P : Point) : decodePoint (encodePoint P) = some P := by
  have hv : P.val < N := ZMod.val_lt P
  rw [encodePoint, decodePoint]
  rw [if_pos ⟨natToBytesFixed_length 48 P.val,
    by rw [bytesToNat_natToBytesFixed 48 P.val (lt_trans hv N_lt_pow)]; exact hv⟩]
  rw [bytesToNat_natToBytesFixed 48 P.val (lt_trans hv N_lt_pow), ZMod.natCast_val,
    ZMod.cast_id]

/-! ### Modular index arithmetic -/

/-- Two distinct offsets below `r` land on distinct indices mod `r`. -/
theorem mod_shift_inj {r a b : Nat} (c : Nat) (ha : a < r) (hb : b < r)
    (h : (c + a) % r = (c + b) % r) : a = b := by
  rcases Nat.le_total a b with hab | hab
  · have hdvd : r ∣ (c + b) - (c + a) :=
      (Nat.modEq_iff_dvd' (by omega)).mp h
    have : c + b - (c + a) = b - a := by omega
    rw [this] at hdvd
    rcases Nat.eq_zero_or_pos (b - a) with h0 | hpos
    · omega
    · have := Nat.le_of_dvd hpos hdvd
      omega
  · have hdvd : r ∣ (c + a) - (c + b) :=
      (Nat.modEq_iff_dvd' (by omega)).mp h.symm
    have : c + a - (c + b) = a - b := by omega
    rw [this] at hdvd
    rcases Nat.eq_zero_or_pos (a - b) with h0 | hpos
    · omega
    · have := Nat.le_of_dvd hpos hdvd
      omega

/-- Every ring index is reached from `idx + 1` within `r` wrapping steps. -/
theorem mod_shift_surj {r idx : Nat} (hidx : idx < r) (j : Nat) (hj : j < r) :
    ∃ a, a ≤ r - 1 ∧ (idx + 1 + a) % r = j ∧ (j ≠ idx → a < r - 1) := by
  rcases Nat.lt_or_ge idx j with hlt | hge
  · refine ⟨j - idx - 1, by omega, ?_, fun _ => by omega⟩
    have : idx + 1 + (j - idx - 1) = j := by omega
    rw [this, Nat.mod_eq_of_lt hj]
  · rcases Nat.eq_or_lt_of_le hge with heq | hlt
    · refine ⟨r - 1, le_rfl, ?_, fun hne => absurd heq hne⟩
      have : idx + 1 + (r - 1) = r + idx := by omega
      rw [this, Nat.add_mod_left, Nat.mod_eq_of_lt hidx, heq]
    · refine ⟨r + j - idx - 1, by omega, ?_, fun _ => by omega⟩
      have : idx + 1 + (r + j - idx - 1) = r + j := by omega
      rw [this, Nat.add_mod_left, Nat.mod_eq_of_lt hj]

/-! ### List getD/set helpers -/

theorem getD_set_self (l : List Bytes) (i : Nat) (a : Bytes) (h : i < l.length) :
    (l.set i a).getD i [] = a := by
  rw [List.getD_eq_getElem?_getD, List.getElem?_set_self h]
  rfl

theorem getD_set_ne (l : List Bytes) (i j : Nat) (a : Bytes) (h : i ≠ j) :
    (l.set i a).getD j [] = l.getD j [] := by
  rw [List.getD_eq_getElem?_getD, List.getElem?_set_ne h, ← List.getD_eq_getElem?_getD]

/-! ### randomParam -/

/-- Any successful draw is the big-endian encoding of a value in `[1, N-1]`. -/
theorem randomParam_range (draws : List Nat) (b : Bytes) (rest : List Nat)
    (h : randomParam draws = some (b, rest)) :
    ∃ v, b = natToBytes v ∧ 1 ≤ v ∧ v < N ∧ bytesToNat b = v := by
  induction draws with
  | nil => simp [randomParam] at h
  | cons d ds ih =>
    rw [randomParam] at h
    by_cases hd : 1 ≤ d % N
    · rw [if_pos hd] at h
      obtain ⟨hb, -⟩ : natToBytes (d % N) = b ∧ ds = rest := by simpa using h
      subst hb
      exact ⟨d % N, rfl, hd, Nat.mod_lt d (by decide : 0 < N),
        bytesToNat_natToBytes (d % N)⟩
    · rw [if_neg hd] at h
      exact ih h

/-! ### The ring-iteration loop -/

/-- Shape of a successful loop iteration. -/
theorem ringStep_ok (hash : Bytes → Bytes) (m : Bytes) (K : List Bytes)
    (r i : Nat) (es ss : List Bytes) (dr : List Nat) (es' ss' : List Bytes)
    (dr' : List Nat)
    (h : ringStep hash m K r i es ss dr = .ok (es', ss', dr')) :
    ∃ s P, randomParam dr = some (s, dr') ∧ decodePoint (K.getD i []) = some P ∧
      es' = es.set ((i + 1) % r)
        (hash (m ++ encodePoint
          (pointAdd (scalarBaseMult s) (scalarMult P (es.getD i []))))) ∧
      ss' = ss.set i s := by
  rw [ringStep] at h
  cases hrp : randomParam dr with
  | none => rw [hrp] at h; simp at h
  | some p =>
    obtain ⟨s, dr''⟩ := p
    rw [hrp] at h
    cases hdp : decodePoint (K.getD i []) with
    | none => rw [hdp] at h; simp at h
    | some P =>
      rw [hdp] at h
      have h' : es.set ((i + 1) % r)
            (hash (m ++ encodePoint
              (pointAdd (scalarBaseMult s) (scalarMult P (es.getD i []))))) = es' ∧
          ss.set i s = ss' ∧ dr'' = dr' := by
        simpa using h
      obtain ⟨h1, h2, h3⟩ := h'
      subst h3
      exact ⟨s, P, rfl, rfl, h1.symm, h2.symm⟩

/-- Unfolding equation for `signLoop` with positive fuel. -/
theorem signLoop_succ (hash : Bytes → Bytes) (m : Bytes) (K : List Bytes)
    (r idx fuel i : Nat) (es ss : List Bytes) (dr : List Nat) :
    signLoop hash m K r idx (fuel + 1) i (es, ss, dr) =
    if i = idx then .ok (es, ss, dr)
    else
      match ringStep hash m K r i es ss dr with
      | .error e => .error e
      | .ok st' => signLoop hash m K r idx fuel ((i + 1) % r) st' := rfl

/-- Unfolding equation for `loopFold` on a nonempty index list. -/
theorem loopFold_cons (hash : Bytes → Bytes) (m : Bytes) (K : List Bytes)
    (r i : Nat) (rest : List Nat) (es ss : List Bytes) (dr : List Nat) :
    loopFold hash m K r (i :: rest) (es, ss, dr) =
    match ringStep hash m K r i es ss dr with
    | .error e => .error e
    | .ok st' => loopFold hash m K r rest st' := rfl

/-- The `for` loop of `Sign`, started at `(idx+1+t) % r` with fuel `d+1`
where `t + d = r - 1`, visits exactly the indices
`(idx+1+t) % r, …, (idx+r-1) % r` in order and then stops at `idx`. -/
theorem signLoop_eq_loopFold (hash : Bytes → Bytes) (m : Bytes) (K : List Bytes)
    (r idx : Nat) (hidx : idx < r) :
    ∀ d t st, t + d = r - 1 →
      signLoop hash m K r idx (d + 1) ((idx + 1 + t) % r) st =
      loopFold hash m K r ((List.range d).map fun u => (idx + 1 + t + u) % r) st := by
  intro d
  induction d with
  | zero =>
    intro t st ht
    obtain ⟨es, ss, dr⟩ := st
    have h1 : idx + 1 + t = idx + r := by omega
    have h2 : (idx + r) % r = idx := by
      rw [Nat.add_mod_right, Nat.mod_eq_of_lt hidx]
    rw [h1, h2]
    rw [signLoop_succ, if_pos rfl]
    rfl
  | succ d ih =>
    intro t st ht
    obtain ⟨es, ss, dr⟩ := st
    have hne : (idx + 1 + t) % r ≠ idx := by
      intro h
      have h0 : (idx + 0) % r = idx := by
        rw [Nat.add_zero, Nat.mod_eq_of_lt hidx]
      have h1 : (idx + (1 + t)) % r = (idx + 0) % r := by
        rw [h0, ← Nat.add_assoc]; exact h
      have := mod_shift_inj idx (by omega : 1 + t < r) (by omega : 0 < r) h1
      omega
    have hlist : (List.range (d + 1)).map (fun u => (idx + 1 + t + u) % r) =
        ((idx + 1 + t) % r) ::
          (List.range d).map (fun u => (idx + 1 + (t + 1) + u) % r) := by
      rw [List.range_succ_eq_map, List.map_cons, List.map_map]
      refine congrArg₂ List.cons (by norm_num) ?_
      refine congrArg (fun f => List.map f (List.range d)) ?_
      funext u
      show (idx + 1 + t + (u + 1)) % r = (idx + 1 + (t + 1) + u) % r
      ring_nf
    rw [hlist, loopFold_cons, signLoop_succ, if_neg hne]
    cases hstep : ringStep hash m K r ((idx + 1 + t) % r) es ss dr with
    | error e => rfl
    | ok st' =>
      have hnext : ((idx + 1 + t) % r + 1) % r = (idx + 1 + (t + 1)) % r := by
        rw [Nat.mod_add_mod]
        ring_nf
      show signLoop hash m K r idx (d + 1) (((idx + 1 + t) % r + 1) % r) st' =
        loopFold hash m K r
          ((List.range d).map (fun u => (idx + 1 + (t + 1) + u) % r)) st'
      rw [hnext]
      exact ih (t + 1) st' (by omega)

/-- The loop (`loopFold`) preserves the lengths of both arrays. -/
theorem loopFold_lengths (hash : Bytes → Bytes) (m : Bytes) (K : List Bytes)
    (r : Nat) :
    ∀ (L : List Nat) (es ss : List Bytes) (dr : List Nat)
      (esF ssF : List Bytes) (dF : List Nat),
      loopFold hash m K r L (es, ss, dr) = .ok (esF, ssF, dF) →
      esF.length = es.length ∧ ssF.length = ss.length := by
  intro L
  induction L with
  | nil =>
    intro es ss dr esF ssF dF h
    obtain ⟨h1, h2, h3⟩ : es = esF ∧ ss = ssF ∧ dr = dF := by
      simpa [loopFold] using h
    exact ⟨h1 ▸ rfl, h2 ▸ rfl⟩
  | cons i L ih =>
    intro es ss dr esF ssF dF h
    rw [loopFold_cons] at h
    cases hstep : ringStep hash m K r i es ss dr with
    | error e => rw [hstep] at h; simp at h
    | ok st' =>
      rw [hstep] at h
      obtain ⟨es', ss', dr'⟩ := st'
      obtain ⟨s, P, -, -, he, hs⟩ := ringStep_ok hash m K r i es ss dr es' ss' dr' hstep
      obtain ⟨l1, l2⟩ := ih es' ss' dr' esF ssF dF h
      rw [l1, l2, he, hs]
      simp

/-- Entries of `es` whose index is not written by any visited iteration are
unchanged by the loop. -/
theorem loopFold_es_frame (hash : Bytes → Bytes) (m : Bytes) (K : List Bytes)
    (r : Nat) :
    ∀ (L : List Nat) (es ss : List Bytes) (dr : List Nat)
      (esF ssF : List Bytes) (dF : List Nat) (j : Nat),
      loopFold hash m K r L (es, ss, dr) = .ok (esF, ssF, dF) →
      (∀ i ∈ L, (i + 1) % r ≠ j) →
      esF.getD j [] = es.getD j [] := by
  intro L
  induction L with
  | nil =>
    intro es ss dr esF ssF dF j h _
    obtain ⟨h1, -, -⟩ : es = esF ∧ ss = ssF ∧ dr = dF := by
      simpa [loopFold] using h
    rw [h1]
  | cons i L ih =>
    intro es ss dr esF ssF dF j h hj
    rw [loopFold_cons] at h
    cases hstep : ringStep hash m K r i es ss dr with
    | error e => rw [hstep] at h; simp at h
    | ok st' =>
      rw [hstep] at h
      obtain ⟨es', ss', dr'⟩ := st'
      obtain ⟨s, P, -, -, he, -⟩ := ringStep_ok hash m K r i es ss dr es' ss' dr' hstep
      rw [ih es' ss' dr' esF ssF dF j h (fun i' hi' => hj i' (List.mem_cons_of_mem i hi')),
        he, getD_set_ne _ _ _ _ (hj i (List.mem_cons_self i L))]

/-- Entries of `ss` whose index is not visited are unchanged by the loop. -/
theorem loopFold_ss_frame (hash : Bytes → Bytes) (m : Bytes) (K : List Bytes)
    (r : Nat) :
    ∀ (L : List Nat) (es ss : List Bytes) (dr : List Nat)
      (esF ssF : List Bytes) (dF : List Nat) (j : Nat),
      loopFold hash m K r L (es, ss, dr) = .ok (esF, ssF, dF) →
      j ∉ L →
      ssF.getD j [] = ss.getD j [] := by
  intro L
  induction L with
  | nil =>
    intro es ss dr esF ssF dF j h _
    obtain ⟨-, h2, -⟩ : es = esF ∧ ss = ssF ∧ dr = dF := by
      simpa [loopFold] using h
    rw [h2]
  | cons i L ih =>
    intro es ss dr esF ssF dF j h hj
    rw [loopFold_cons] at h
    cases hstep : ringStep hash m K r i es ss dr with
    | error e => rw [hstep] at h; simp at h
    | ok st' =>
      rw [hstep] at h
      obtain ⟨es', ss', dr'⟩ := st'
      obtain ⟨s, P, -, -, -, hs⟩ := ringStep_ok hash m K r i es ss dr es' ss' dr' hstep
      rw [ih es' ss' dr' esF ssF dF j h (fun hmem => hj (List.mem_cons_of_mem i hmem)),
        hs, getD_set_ne _ _ _ _ (fun hij : i = j => hj (hij ▸ List.mem_cons_self i L))]

/-- Distinct nonzero offsets (up to and including a full wrap) land on
distinct indices mod `r`. -/
theorem mod_shift_ne (r c a b : Nat) (ha1 : 1 ≤ a) (ha : a ≤ r) (hb1 : 1 ≤ b)
    (hb : b ≤ r) (hab : a ≠ b) : (c + a) % r ≠ (c + b) % r := by
  intro h
  rcases eq_or_lt_of_le ha with har | halt
  · rcases eq_or_lt_of_le hb with hbr | hblt
    · omega
    · subst har
      rw [Nat.add_mod_right] at h
      have h' : (c + 0) % a = (c + b) % a := by rw [Nat.add_zero]; exact h
      have := mod_shift_inj c (by omega : 0 < a) hblt h'
      omega
  · rcases eq_or_lt_of_le hb with hbr | hblt
    · subst hbr
      rw [Nat.add_mod_right] at h
      have h' : (c + a) % b = (c + 0) % b := by rw [Nat.add_zero]; exact h
      have := mod_shift_inj c halt (by omega : 0 < b) h'
      omega
    · have := mod_shift_inj c halt hblt h
      omega

/-- Peel the first visited index off the index sequence. -/
theorem range_map_mod_cons (r idx d t : Nat) :
    (List.range (d + 1)).map (fun u => (idx + 1 + t + u) % r) =
    ((idx + 1 + t) % r) ::
      (List.range d).map (fun u => (idx + 1 + (t + 1) + u) % r) := by
  rw [List.range_succ_eq_map, List.map_cons, List.map_map]
  refine congrArg₂ List.cons (by norm_num) ?_
  refine congrArg (fun f => List.map f (List.range d)) ?_
  funext u
  show (idx + 1 + t + (u + 1)) % r = (idx + 1 + (t + 1) + u) % r
  ring_nf

/-- Chain invariant: after the loop has run from step `t`, every iteration
`u ≥ t` has stored `s(p_u)` and `e(p_{u+1}) = H(m ‖ s(p_u)·G + e(p_u)·P(p_u))`,
where `p_u = (idx+1+u) % r`, and those entries survive to the final arrays. -/
theorem loopFold_chain (hash : Bytes → Bytes) (m : Bytes) (K : List Bytes)
    (r idx : Nat) (hidx : idx < r) :
    ∀ d t (es ss : List Bytes) (dr : List Nat) (esF ssF : List Bytes)
      (dF : List Nat),
      t + d = r - 1 →
      es.length = r → ss.length = r →
      loopFold hash m K r ((List.range d).map fun u => (idx + 1 + t + u) % r)
        (es, ss, dr) = .ok (esF, ssF, dF) →
      ∀ u, t ≤ u → u < r - 1 →
        ∃ P, decodePoint (K.getD ((idx + 1 + u) % r) []) = some P ∧
          esF.getD ((idx + 1 + u + 1) % r) [] =
            hash (m ++ encodePoint
              (pointAdd (scalarBaseMult (ssF.getD ((idx + 1 + u) % r) []))
                (scalarMult P (esF.getD ((idx + 1 + u) % r) [])))) := by
  intro d
  induction d with
  | zero =>
    intro t es ss dr esF ssF dF ht _ _ _ u htu hu
    omega
  | succ d ih =>
    intro t es ss dr esF ssF dF ht hlen_es hlen_ss h u htu hu
    rw [range_map_mod_cons, loopFold_cons] at h
    cases hstep : ringStep hash m K r ((idx + 1 + t) % r) es ss dr with
    | error e =>
      rw [hstep] at h
      simp at h
    | ok st' =>
      rw [hstep] at h
      obtain ⟨es', ss', dr'⟩ := st'
      obtain ⟨s, P, hrand, hdec, he', hs'⟩ :=
        ringStep_ok hash m K r ((idx + 1 + t) % r) es ss dr es' ss' dr' hstep
      have hlen_es' : es'.length = r := by rw [he', List.length_set]; exact hlen_es
      have hlen_ss' : ss'.length = r := by rw [hs', List.length_set]; exact hlen_ss
      rcases Nat.eq_or_lt_of_le htu with heq | hlt
      · subst heq
        refine ⟨P, hdec, ?_⟩
        have hfr_e1 : esF.getD ((idx + 1 + t + 1) % r) [] =
            es'.getD ((idx + 1 + t + 1) % r) [] := by
          refine loopFold_es_frame hash m K r _ es' ss' dr' esF ssF dF _ h ?_
          intro i' hi'
          obtain ⟨u', hu', rfl⟩ := List.mem_map.mp hi'
          rw [List.mem_range] at hu'
          rw [Nat.mod_add_mod]
          have e1 : idx + 1 + (t + 1) + u' + 1 = idx + (t + u' + 3) := by omega
          have e2 : idx + 1 + t + 1 = idx + (t + 2) := by omega
          rw [e1, e2]
          exact mod_shift_ne r idx (t + u' + 3) (t + 2) (by omega) (by omega)
            (by omega) (by omega) (by omega)
        have hfr_s : ssF.getD ((idx + 1 + t) % r) [] =
            ss'.getD ((idx + 1 + t) % r) [] := by
          refine loopFold_ss_frame hash m K r _ es' ss' dr' esF ssF dF _ h ?_
          intro hmem
          obtain ⟨u', hu', hval⟩ := List.mem_map.mp hmem
          rw [List.mem_range] at hu'
          have e1 : idx + 1 + (t + 1) + u' = idx + (t + u' + 2) := by omega
          have e2 : idx + 1 + t = idx + (t + 1) := by omega
          rw [e1, e2] at hval
          exact mod_shift_ne r idx (t + u' + 2) (t + 1) (by omega) (by omega)
            (by omega) (by omega) (by omega) hval
        have hfr_e2 : esF.getD ((idx + 1 + t) % r) [] =
            es'.getD ((idx + 1 + t) % r) [] := by
          refine loopFold_es_frame hash m K r _ es' ss' dr' esF ssF dF _ h ?_
          intro i' hi'
          obtain ⟨u', hu', rfl⟩ := List.mem_map.mp hi'
          rw [List.mem_range] at hu'
          rw [Nat.mod_add_mod]
          have e1 : idx + 1 + (t + 1) + u' + 1 = idx + (t + u' + 3) := by omega
          have e2 : idx + 1 + t = idx + (t + 1) := by omega
          rw [e1, e2]
          exact mod_shift_ne r idx (t + u' + 3) (t + 1) (by omega) (by omega)
            (by omega) (by omega) (by omega)
        have hset_e : es'.getD ((idx + 1 + t + 1) % r) [] =
            hash (m ++ encodePoint
              (pointAdd (scalarBaseMult s)
                (scalarMult P (es.getD ((idx + 1 + t) % r) [])))) := by
          rw [he']
          have : ((idx + 1 + t) % r + 1) % r = (idx + 1 + t + 1) % r :=
            Nat.mod_add_mod _ _ _
          rw [← this]
          exact getD_set_self _ _ _ (by rw [hlen_es]; exact Nat.mod_lt _ (by omega))
        have hset_s : ss'.getD ((idx + 1 + t) % r) [] = s := by
          rw [hs']
          exact getD_set_self _ _ _ (by rw [hlen_ss]; exact Nat.mod_lt _ (by omega))
        have hkeep_e : es'.getD ((idx + 1 + t) % r) [] =
            es.getD ((idx + 1 + t) % r) [] := by
          rw [he']
          refine getD_set_ne _ _ _ _ ?_
          rw [Nat.mod_add_mod]
          have e1 : idx + 1 + t + 1 = idx + (t + 2) := by omega
          have e2 : idx + 1 + t = idx + (t + 1) := by omega
          rw [e1, e2]
          exact mod_shift_ne r idx (t + 2) (t + 1) (by omega) (by omega)
            (by omega) (by omega) (by omega)
        rw [hfr_e1, hfr_s, hfr_e2, hset_e, hset_s, hkeep_e]
      · exact ih (t + 1) es' ss' dr' esF ssF dF (by omega) hlen_es' hlen_ss' h u
          (by omega) hu

/-- Unfolding equation for `verifyLoop` on a nonempty list. -/
theorem verifyLoop_cons (hash : Bytes → Bytes) (m si ki : Bytes)
    (rest : List (Bytes × Bytes)) (e : Bytes) :
    verifyLoop hash m ((si, ki) :: rest) e =
    match decodePoint ki with
    | none => none
    | some P =>
      verifyLoop hash m rest
        (hash (m ++ encodePoint
          (pointAdd (scalarBaseMult si) (scalarMult P e)))) := rfl

/-- The verification walk closes: if every link of the challenge chain is
consistent, the walk starting from `e(0)` returns `e(0)` again. -/
theorem verifyLoop_walk (hash : Bytes → Bytes) (m : Bytes)
    (S KK esA : List Bytes) (R : Nat) (hS : S.length = R) (hK : KK.length = R)
    (h : ∀ j, j < R → ∃ P, decodePoint (KK.getD j []) = some P ∧
        hash (m ++ encodePoint (pointAdd (scalarBaseMult (S.getD j []))
          (scalarMult P (esA.getD j [])))) = esA.getD ((j + 1) % R) []) :
    ∀ d j, j + d = R →
      verifyLoop hash m ((S.zip KK).drop j) (esA.getD (j % R) []) =
        some (esA.getD 0 []) := by
  have hlen : (S.zip KK).length = R := by
    rw [List.length_zip, hS, hK]; exact min_self R
  intro d
  induction d with
  | zero =>
    intro j hj
    have hjR : j = R := by omega
    subst hjR
    rw [List.drop_eq_nil_of_le (le_of_eq hlen), Nat.mod_self]
    rfl
  | succ d ih =>
    intro j hj
    have hjR : j < R := by omega
    have hjz : j < (S.zip KK).length := by omega
    rw [List.drop_eq_getElem_cons hjz, List.getElem_zip, verifyLoop_cons]
    obtain ⟨P, hdec, heq⟩ := h j hjR
    rw [List.getD_eq_getElem _ _ (by omega : j < KK.length)] at hdec
    rw [hdec]
    show verifyLoop hash m ((S.zip KK).drop (j + 1))
        (hash (m ++ encodePoint
          (pointAdd (scalarBaseMult S[j])
            (scalarMult P (esA.getD (j % R) []))))) =
      some (esA.getD 0 [])
    rw [Nat.mod_eq_of_lt hjR,
      ← List.getD_eq_getElem S ([] : Bytes) (by omega : j < S.length), heq,
      ← Nat.mod_add_mod]
    rw [Nat.mod_eq_of_lt hjR]
    exact ih (j + 1) (by omega)

/-! ### The ring-closing arithmetic -/

/-- Branch equations of `closeRing`. -/
theorem closeRing_spec (k e x : Nat) :
    (0 ≤ (k : Int) - e * x → closeRing k e x = .ok ((k : Int) - e * x)) ∧
    ((k : Int) - e * x < 0 → (k : Int) - e * x + e * N = 0 →
      closeRing k e x = .error .signatureFailed) ∧
    ((k : Int) - e * x < 0 → (k : Int) - e * x + e * N ≠ 0 →
      closeRing k e x = .ok ((k : Int) - e * x + e * N)) := by
  refine ⟨fun h1 => ?_, fun h1 h2 => ?_, fun h1 h2 => ?_⟩
  · simp only [closeRing]
    rw [if_neg (by omega)]
  · simp only [closeRing]
    rw [if_pos h1, if_pos h2]
  · simp only [closeRing]
    rw [if_pos h1, if_neg h2]

/-- Case analysis of a successful `closeRing`. -/
theorem closeRing_ok_elim (k e x : Nat) (v : Int) (h : closeRing k e x = .ok v) :
    (0 ≤ (k : Int) - e * x ∧ v = (k : Int) - e * x) ∨
    ((k : Int) - e * x < 0 ∧ v ≠ 0 ∧ v = (k : Int) - e * x + e * N) := by
  by_cases h1 : (k : Int) - e * x < 0
  · by_cases h2 : (k : Int) - e * x + e * N = 0
    · rw [(closeRing_spec k e x).2.1 h1 h2] at h
      simp at h
    · rw [(closeRing_spec k e x).2.2 h1 h2] at h
      right
      have hv := (Except.ok.inj h).symm
      exact ⟨h1, hv ▸ h2, hv⟩
  · rw [(closeRing_spec k e x).1 (by omega)] at h
    left
    exact ⟨by omega, (Except.ok.inj h).symm⟩

/-- A successful `closeRing` with `x < N` emits a nonnegative value whose
curve product with `e·P` closes the ring back to `k·G`. -/
theorem closeRing_closes (k e x : Nat) (hx : x < N) (v : Int)
    (h : closeRing k e x = .ok v) :
    0 ≤ v ∧ ((v.natAbs : ZMod N) + (e : ZMod N) * (x : ZMod N) = (k : ZMod N)) := by
  have hcast : ∀ w : Int, 0 ≤ w → ((w.natAbs : Nat) : ZMod N) = ((w : Int) : ZMod N) := by
    intro w hw
    rw [← Int.cast_natCast (R := ZMod N), Int.natAbs_of_nonneg hw]
  rcases closeRing_ok_elim k e x v h with ⟨hpos, rfl⟩ | ⟨hneg, hnz, rfl⟩
  · refine ⟨hpos, ?_⟩
    rw [hcast _ hpos]
    push_cast
    ring
  · have hv : 0 ≤ (k : Int) - e * x + e * N := by
      have hxle : (x : Int) + 1 ≤ (N : Int) := by exact_mod_cast hx
      nlinarith [Int.natCast_nonneg k, Int.natCast_nonneg e]
    refine ⟨hv, ?_⟩
    rw [hcast _ hv]
    push_cast
    rw [ZMod.natCast_self]
    ring

/-- Characterization of a successful `Sign` run: the preconditions held, the
RNG produced a nonce, the ring loop completed, the closing arithmetic
succeeded, and the emitted signature is built from the final arrays. -/
theorem Sign_ok_elim (hash : Bytes → Bytes) (sk : Bytes) (draws : List Nat)
    (m : Bytes) (K : List Bytes) (si : Int) (sig : Signature)
    (h : Sign hash sk draws m K si = .ok sig) :
    m ≠ [] ∧ 0 ≤ si ∧ si.toNat < K.length ∧ 2 ≤ K.length ∧
    ∃ kb d1 esF ssF d2 v,
      randomParam draws = some (kb, d1) ∧
      loopFold hash m K K.length
        ((List.range (K.length - 1)).map fun u => (si.toNat + 1 + u) % K.length)
        ((List.replicate K.length ([] : Bytes)).set ((si.toNat + 1) % K.length)
          (hash (m ++ encodePoint (scalarBaseMult kb))),
         List.replicate K.length ([] : Bytes), d1) = .ok (esF, ssF, d2) ∧
      closeRing (bytesToNat kb) (bytesToNat (esF.getD si.toNat []))
        (bytesToNat sk) = .ok v ∧
      sig = { ring := K, e := esF.getD 0 [],
              s := ssF.set si.toNat (natToBytes v.natAbs) } := by
  unfold Sign at h
  split at h
  · simp at h
  split at h
  · simp at h
  split at h
  · simp at h
  next hm hrange hsize =>
  push_neg at hrange
  obtain ⟨hsi0, hsilt⟩ := hrange
  have hidx : si.toNat < K.length := by omega
  have h2r : 2 ≤ K.length := by omega
  refine ⟨fun hnil => hm (by rw [hnil]; rfl), hsi0, hidx, h2r, ?_⟩
  split at h
  · simp at h
  next kb d1 hrp =>
  split at h
  · simp at h
  next esF ssF d2 hloop =>
  split at h
  · simp at h
  next v hclose =>
  refine ⟨kb, d1, esF, ssF, d2, v, hrp, ?_, hclose, (Except.ok.inj h).symm⟩
  have hl := signLoop_eq_loopFold hash m K K.length si.toNat hidx
    (K.length - 1) 0
    ((List.replicate K.length ([] : Bytes)).set ((si.toNat + 1) % K.length)
      (hash (m ++ encodePoint (scalarBaseMult kb))),
     List.replicate K.length ([] : Bytes), d1) (by omega)
  simp only [Nat.add_zero] at hl
  rw [← hl]
  have hfe : K.length - 1 + 1 = K.length := by omega
  rw [hfe]
  exact hloop

/-- Unfolding equation for `Verify` on a non-nil signature. -/
theorem Verify_some (hash : Bytes → Bytes) (m : Bytes) (sig : Signature) :
    Verify hash (some sig) m =
    (if sig.ring.length < 2 then some false
     else if sig.s.length ≠ sig.ring.length then some false
     else if sig.e.length = 0 then some false
     else
       match verifyLoop hash m (sig.s.zip sig.ring) sig.e with
       | none => none
       | some e => some (e = sig.e)) := rfl

/-- Completeness (claim C1): a signature produced by `Sign` for a private
scalar `x < N` whose public key `x·G` sits at the signer's slot verifies
against the same message, for any hash function with nonempty output. -/
theorem sign_verify_complete (hash : Bytes → Bytes) (hhash : ∀ b, hash b ≠ [])
    (sk : Bytes) (draws : List Nat) (message : Bytes) (ringKeys : List Bytes)
    (signerIndex : Int) (sig : Signature)
    (hx : bytesToNat sk < N)
    (hpk : decodePoint (ringKeys.getD signerIndex.toNat []) =
      some ((bytesToNat sk : ZMod N)))
    (hsig : Sign hash sk draws message ringKeys signerIndex = .ok sig) :
    Verify hash (some sig) message = some true := by
  obtain ⟨hm, hsi0, hidx, h2r, kb, d1, esF, ssF, d2, v, hrp, hfold, hclose, hsigeq⟩ :=
    Sign_ok_elim hash sk draws message ringKeys signerIndex sig hsig
  subst hsigeq
  set r := ringKeys.length with hr
  set idx := signerIndex.toNat with hidxdef
  have hrpos : 0 < r := by omega
  -- lengths of the final arrays
  have hlen0_es : ((List.replicate r ([] : Bytes)).set ((idx + 1) % r)
      (hash (message ++ encodePoint (scalarBaseMult kb)))).length = r := by
    rw [List.length_set, List.length_replicate]
  have hlen0_ss : (List.replicate r ([] : Bytes)).length = r :=
    List.length_replicate r []
  obtain ⟨hlen_es, hlen_ss⟩ := loopFold_lengths hash message ringKeys r _ _ _ _
    _ _ _ hfold
  rw [hlen0_es] at hlen_es
  rw [hlen0_ss] at hlen_ss
  -- the initial challenge entry survives the loop
  have hinit : esF.getD ((idx + 1) % r) [] =
      hash (message ++ encodePoint (scalarBaseMult kb)) := by
    have hfr : esF.getD ((idx + 1) % r) [] =
        ((List.replicate r ([] : Bytes)).set ((idx + 1) % r)
          (hash (message ++ encodePoint (scalarBaseMult kb)))).getD
          ((idx + 1) % r) [] := by
      refine loopFold_es_frame hash message ringKeys r _ _ _ _ _ _ _ _ hfold ?_
      intro i' hi'
      obtain ⟨u', hu', rfl⟩ := List.mem_map.mp hi'
      rw [List.mem_range] at hu'
      rw [Nat.mod_add_mod]
      have e1 : idx + 1 + u' + 1 = idx + (u' + 2) := by omega
      have e2 : idx + 1 = idx + 1 := rfl
      rw [e1]
      exact mod_shift_ne r idx (u' + 2) 1 (by omega) (by omega) (by omega)
        (by omega) (by omega)
    have hlt : (idx + 1) % r < (List.replicate r ([] : Bytes)).length := by
      rw [List.length_replicate]
      exact Nat.mod_lt _ hrpos
    rw [hfr, getD_set_self _ _ _ hlt]
  -- the chain property for every visited slot
  have hchain := loopFold_chain hash message ringKeys r idx (by omega) (r - 1) 0
    _ _ d1 esF ssF d2 (by omega) hlen0_es hlen0_ss
    (by simp only [Nat.add_zero]; exact hfold)
  -- every entry of the final challenge array is a hash output
  have hhashout : ∀ j, j < r → ∃ b, esF.getD j [] = hash b := by
    intro j hj
    obtain ⟨a, ha, haj, _⟩ := mod_shift_surj (by omega : idx < r) j hj
    cases a with
    | zero =>
      refine ⟨message ++ encodePoint (scalarBaseMult kb), ?_⟩
      rw [← haj]
      exact hinit
    | succ a' =>
      obtain ⟨P, -, heq⟩ := hchain a' (Nat.zero_le a') (by omega)
      refine ⟨message ++ encodePoint
        (pointAdd (scalarBaseMult (ssF.getD ((idx + 1 + a') % r) []))
          (scalarMult P (esF.getD ((idx + 1 + a') % r) []))), ?_⟩
      rw [show j = (idx + 1 + a' + 1) % r from by rw [← haj]; congr 1]
      exact heq
  -- the verification-walk hypothesis, slot by slot
  have hwalk : ∀ j, j < r → ∃ P,
      decodePoint (ringKeys.getD j []) = some P ∧
      hash (message ++ encodePoint
        (pointAdd
          (scalarBaseMult ((ssF.set idx (natToBytes v.natAbs)).getD j []))
          (scalarMult P (esF.getD j [])))) = esF.getD ((j + 1) % r) [] := by
    intro j hj
    by_cases hjidx : j = idx
    · rw [hjidx]
      refine ⟨(bytesToNat sk : ZMod N), hpk, ?_⟩
      obtain ⟨hv0, hcloses⟩ := closeRing_closes (bytesToNat kb)
        (bytesToNat (esF.getD idx [])) (bytesToNat sk) hx v hclose
      rw [getD_set_self _ _ _ (by rw [hlen_ss]; exact hidx)]
      have hpt : pointAdd (scalarBaseMult (natToBytes v.natAbs))
          (scalarMult ((bytesToNat sk : ZMod N)) (esF.getD idx [])) =
          scalarBaseMult kb := by
        rw [pointAdd, scalarBaseMult, scalarMult, scalarBaseMult,
          bytesToNat_natToBytes]
        exact hcloses
      rw [hpt, ← hinit]
    · obtain ⟨a, ha, haj, halt⟩ := mod_shift_surj (by omega : idx < r) j hj
      have ha' : a < r - 1 := halt hjidx
      obtain ⟨P, hdec, heq⟩ := hchain a (Nat.zero_le a) ha'
      have hsucc : (idx + 1 + a + 1) % r = (j + 1) % r := by
        rw [← haj, Nat.mod_add_mod]
      rw [haj] at hdec heq
      rw [hsucc] at heq
      refine ⟨P, hdec, ?_⟩
      rw [getD_set_ne _ _ _ _ (fun hji => hjidx hji.symm)]
      exact heq.symm
  -- assemble `Verify`
  rw [Verify_some]
  dsimp only
  rw [if_neg (by omega)]
  rw [if_neg (by rw [List.length_set, hlen_ss]; omega)]
  obtain ⟨b0, hb0⟩ := hhashout 0 (by omega)
  rw [if_neg (by rw [hb0]; intro hlen0; exact hhash b0 (List.eq_nil_of_length_eq_zero hlen0))]
  have hwalked := verifyLoop_walk hash message (ssF.set idx (natToBytes v.natAbs))
    ringKeys esF r (by rw [List.length_set, hlen_ss]) rfl hwalk r 0 (by omega)
  rw [List.drop_zero, Nat.zero_mod] at hwalked
  rw [hwalked]
  simp

/-! ### Claim theorems -/

/-- C9: the ring-iteration loop of `Sign` (entered with fuel `r` at index
`(idx+1) % r`) performs exactly the iterations listed by `visits r idx`:
`r-1` of them, each index other than `idx` exactly once, in wrapping order,
never revisiting `idx`. -/
theorem sign_loop_traversal (hash : Bytes → Bytes) (m : Bytes) (K : List Bytes)
    (r idx : Nat) (h2 : 2 ≤ r) (hidx : idx < r) :
    (∀ st, signLoop hash m K r idx r ((idx + 1) % r) st =
      loopFold hash m K r (visits r idx) st) ∧
    (visits r idx).length = r - 1 ∧
    idx ∉ visits r idx ∧
    (visits r idx).Nodup ∧
    (∀ j, j < r → j ≠ idx → j ∈ visits r idx) := by
  refine ⟨?_, ?_, ?_, ?_, ?_⟩
  · intro st
    have hl := signLoop_eq_loopFold hash m K r idx hidx (r - 1) 0 st (by omega)
    simp only [Nat.add_zero] at hl
    have hfe : r - 1 + 1 = r := by omega
    rw [hfe] at hl
    exact hl
  · rw [visits, List.length_map, List.length_range]
  · intro hmem
    obtain ⟨u, hu, huj⟩ := List.mem_map.mp hmem
    rw [List.mem_range] at hu
    have h0 : (idx + 0) % r = idx := by
      rw [Nat.add_zero, Nat.mod_eq_of_lt hidx]
    have h1 : (idx + (1 + u)) % r = (idx + 0) % r := by
      rw [h0, ← Nat.add_assoc]
      exact huj
    have := mod_shift_inj idx (by omega : 1 + u < r) (by omega : 0 < r) h1
    omega
  · refine List.Nodup.map_on ?_ (List.nodup_range (r - 1))
    intro a ha b hb hab
    rw [List.mem_range] at ha hb
    exact mod_shift_inj (idx + 1) (by omega) (by omega) hab
  · intro j hj hjidx
    obtain ⟨a, -, haj, halt⟩ := mod_shift_surj hidx j hj
    exact List.mem_map.mpr ⟨a, List.mem_range.mpr (halt hjidx), haj⟩

/-- C6: `Sign` checks its preconditions in the fixed order empty message,
signer index out of range, ring too small, and returns the error of the
first failing check. -/
theorem sign_precondition_order (hash : Bytes → Bytes) (sk : Bytes)
    (draws : List Nat) (m : Bytes) (K : List Bytes) (si : Int) :
    (m = [] → Sign hash sk draws m K si = .error .emptyMessage) ∧
    (m ≠ [] → (si < 0 ∨ (K.length : Int) ≤ si) →
      Sign hash sk draws m K si = .error .invalidSignerIndex) ∧
    (m ≠ [] → ¬(si < 0 ∨ (K.length : Int) ≤ si) → K.length < 2 →
      Sign hash sk draws m K si = .error .ringTooSmall) := by
  refine ⟨fun h1 => ?_, fun h1 h2 => ?_, fun h1 h2 h3 => ?_⟩
  · unfold Sign
    rw [if_pos (by rw [h1]; rfl)]
  · unfold Sign
    rw [if_neg (by simpa using h1), if_pos h2]
  · unfold Sign
    rw [if_neg (by simpa using h1), if_neg h2, if_pos h3]

/-- C8: every successful `randomParam` draw encodes an integer in
`[1, N-1]`, and a draw that reduces to zero is rejected and retried. -/
theorem randomParam_range_and_retry :
    (∀ draws b rest, randomParam draws = some (b, rest) →
      1 ≤ bytesToNat b ∧ bytesToNat b < N ∧ b = natToBytes (bytesToNat b)) ∧
    (∀ d rest, d % N = 0 → randomParam (d :: rest) = randomParam rest) := by
  constructor
  · intro draws b rest h
    obtain ⟨v, hb, h1, h2, h3⟩ := randomParam_range draws b rest h
    refine ⟨h3 ▸ h1, h3 ▸ h2, ?_⟩
    rw [h3, hb]
  · intro d rest hd
    rw [randomParam, if_neg (by omega)]

/-- C2: canonicalization of the closing scalar.  With `s = k - e·x` (signed):
if `s ≥ 0` it is emitted as is; if `s < 0`, `e·N` is added exactly once,
the result is nonnegative (for any private scalar `x < N`, even though
`|e·x|` may exceed `N` many times), it acts on the curve exactly like `s`
(`N·G = O`), and a zero result aborts with `signatureFailed`. -/
theorem closeRing_canonicalization (k e x : Nat) (hx : x < N) :
    (0 ≤ (k : Int) - e * x → closeRing k e x = .ok ((k : Int) - e * x)) ∧
    ((k : Int) - e * x < 0 →
      ((k : Int) - e * x + e * N = 0 →
        closeRing k e x = .error .signatureFailed) ∧
      ((k : Int) - e * x + e * N ≠ 0 →
        closeRing k e x = .ok ((k : Int) - e * x + e * N) ∧
        0 ≤ (k : Int) - e * x + e * N ∧
        ∀ P : Point,
          (((k : Int) - e * x + e * N : Int) : ZMod N) * G + (e : ZMod N) * P =
          (((k : Int) - e * x : Int) : ZMod N) * G + (e : ZMod N) * P)) := by
  refine ⟨(closeRing_spec k e x).1, fun h1 => ⟨(closeRing_spec k e x).2.1 h1,
    fun h2 => ⟨(closeRing_spec k e x).2.2 h1 h2, ?_, ?_⟩⟩⟩
  · have hxle : (x : Int) + 1 ≤ (N : Int) := by exact_mod_cast hx
    nlinarith [Int.natCast_nonneg k, Int.natCast_nonneg e]
  · intro P
    have hcast : (((k : Int) - e * x + e * N : Int) : ZMod N) =
        (((k : Int) - e * x : Int) : ZMod N) := by
      push_cast
      rw [ZMod.natCast_self]
      ring
    rw [hcast]

/-- One loop iteration (`ringStep`) never fails with `signatureFailed`. -/
theorem ringStep_no_signatureFailed (hash : Bytes → Bytes) (m : Bytes)
    (K : List Bytes) (r i : Nat) (es ss : List Bytes) (dr : List Nat) :
    ringStep hash m K r i es ss dr ≠ .error .signatureFailed := by
  rw [ringStep]
  cases randomParam dr with
  | none => simp
  | some p =>
    obtain ⟨s, dr'⟩ := p
    cases decodePoint (K.getD i []) with
    | none => simp
    | some P => simp

/-- The ring loop never fails with `signatureFailed`. -/
theorem signLoop_no_signatureFailed (hash : Bytes → Bytes) (m : Bytes)
    (K : List Bytes) (r idx : Nat) :
    ∀ fuel i st, signLoop hash m K r idx fuel i st ≠ .error .signatureFailed := by
  intro fuel
  induction fuel with
  | zero =>
    intro i st
    obtain ⟨es, ss, dr⟩ := st
    simp [signLoop]
  | succ fuel ih =>
    intro i st
    obtain ⟨es, ss, dr⟩ := st
    rw [signLoop_succ]
    by_cases hi : i = idx
    · rw [if_pos hi]; simp
    · rw [if_neg hi]
      cases hstep : ringStep hash m K r i es ss dr with
      | error e =>
        intro hcontra
        have he : e = .signatureFailed := by
          simpa using hcontra
        exact ringStep_no_signatureFailed hash m K r i es ss dr (he ▸ hstep)
      | ok st' => exact ih ((i + 1) % r) st'

/-- A `closeRing` failure pins down the branch conditions. -/
theorem closeRing_error_elim (k e x : Nat) (err : SignError)
    (h : closeRing k e x = .error err) :
    err = .signatureFailed ∧ (k : Int) - e * x < 0 ∧
    (k : Int) - e * x + e * N = 0 := by
  by_cases h1 : (k : Int) - e * x < 0
  · by_cases h2 : (k : Int) - e * x + e * N = 0
    · rw [(closeRing_spec k e x).2.1 h1 h2] at h
      exact ⟨(Except.error.inj h).symm, h1, h2⟩
    · rw [(closeRing_spec k e x).2.2 h1 h2] at h
      simp at h
  · rw [(closeRing_spec k e x).1 (by omega)] at h
    simp at h

/-- C10 (amended): for any private scalar `x < N`, `Sign` never returns the
`signatureFailed` error — the nonce drawn by `randomParam` is at least 1,
so the canonicalized closing scalar can never be zero in the adjustment
branch (it is nonnegative, and zero only in the non-adjusted branch). -/
theorem signatureFailed_unreachable (hash : Bytes → Bytes) (sk : Bytes)
    (draws : List Nat) (m : Bytes) (K : List Bytes) (si : Int)
    (hx : bytesToNat sk < N) :
    Sign hash sk draws m K si ≠ .error .signatureFailed := by
  intro h
  unfold Sign at h
  split at h
  · simp at h
  split at h
  · simp at h
  split at h
  · simp at h
  split at h
  · simp at h
  next kb d1 hrp =>
  split at h
  next e hloop =>
    have he : e = .signatureFailed := by simpa using h
    exact signLoop_no_signatureFailed hash m K K.length si.toNat K.length
      ((si.toNat + 1) % K.length) _ (he ▸ hloop)
  next esF ssF d2 hloop =>
  split at h
  next e hclose =>
    have he : e = .signatureFailed := by simpa using h
    obtain ⟨-, hneg, hzero⟩ := closeRing_error_elim _ _ _ _ (he ▸ hclose)
    obtain ⟨kv, hkb, hk1, hkN, hkval⟩ := randomParam_range draws kb d1 hrp
    rw [hkval] at hneg hzero
    have hxle : ((bytesToNat sk : Nat) : Int) + 1 ≤ (N : Int) := by
      exact_mod_cast hx
    have hk1' : (1 : Int) ≤ (kv : Int) := by exact_mod_cast hk1
    nlinarith [Int.natCast_nonneg (bytesToNat (esF.getD si.toNat []))]
  next v hclose => simp at h

/-- C3 (amended): every successful `Sign` run with a private scalar `x < N`
emits at `s[signer_index]` the big-endian encoding of a *nonnegative*
integer satisfying the core contract `s_r·G + e·P_r = k·G` for *that run's*
nonce `k` and closing challenge `e` — the components are pinned to the run:
`kb` is the byte string the run drew via `randomParam` (encoding
`k ∈ [1, N-1]`), `esF` is the challenge array the ring loop of that run
produced, `e` is `esF[signer_index]` (the value the close step reads), and
the emitted value is the `closeRing` output of exactly those inputs.  The
emitted integer is *not* in general smaller than `N`. -/
theorem sign_sr_nonneg_contract (hash : Bytes → Bytes) (sk : Bytes)
    (draws : List Nat) (m : Bytes) (K : List Bytes) (si : Int)
    (sig : Signature) (hx : bytesToNat sk < N)
    (hsig : Sign hash sk draws m K si = .ok sig) :
    ∃ kb d1 esF ssF d2 v,
      randomParam draws = some (kb, d1) ∧
      loopFold hash m K K.length
        ((List.range (K.length - 1)).map fun u => (si.toNat + 1 + u) % K.length)
        ((List.replicate K.length ([] : Bytes)).set ((si.toNat + 1) % K.length)
          (hash (m ++ encodePoint (scalarBaseMult kb))),
         List.replicate K.length ([] : Bytes), d1) = .ok (esF, ssF, d2) ∧
      closeRing (bytesToNat kb) (bytesToNat (esF.getD si.toNat []))
        (bytesToNat sk) = .ok v ∧
      1 ≤ bytesToNat kb ∧ bytesToNat kb < N ∧
      0 ≤ v ∧
      sig.s.getD si.toNat [] = natToBytes v.natAbs ∧
      (v.natAbs : ZMod N) * G +
        (bytesToNat (esF.getD si.toNat []) : ZMod N) *
          ((bytesToNat sk : ZMod N) * G) =
        (bytesToNat kb : ZMod N) * G := by
  obtain ⟨-, -, hidx, h2r, kb, d1, esF, ssF, d2, v, hrp, hfold, hclose, hsigeq⟩ :=
    Sign_ok_elim hash sk draws m K si sig hsig
  obtain ⟨kv, hkb, hk1, hkN, hkval⟩ := randomParam_range draws kb d1 hrp
  obtain ⟨hlen_es, hlen_ss⟩ := loopFold_lengths hash m K K.length _ _ _ _ _ _ _
    hfold
  rw [List.length_replicate] at hlen_ss
  obtain ⟨hv0, hcloses⟩ := closeRing_closes (bytesToNat kb)
    (bytesToNat (esF.getD si.toNat [])) (bytesToNat sk) hx v hclose
  refine ⟨kb, d1, esF, ssF, d2, v, hrp, hfold, hclose, ?_, ?_, hv0, ?_, ?_⟩
  · rw [hkval]; exact hk1
  · rw [hkval]; exact hkN
  · rw [hsigeq]
    exact getD_set_self _ _ _ (by rw [hlen_ss]; exact hidx)
  · rw [G, mul_one, mul_one, mul_one, hcloses]

/-- Decoding a list of base64-string leaves recovers the byte strings. -/
theorem mapM_jsonBytes (l : List Bytes) :
    (l.map Json.bytes).mapM jsonBytes = some l := by
  induction l with
  | nil => rfl
  | cons b rest ih =>
    rw [List.map_cons, List.mapM_cons, ih]
    rfl

/-- C7: the codec round-trips every signature structurally — same ring
sequence, same `e`, same `s` sequence, for arbitrary byte strings including
empty and high-bit-set ones — both at the binary layer
(`Unmarshal ∘ Marshal`) and at the text layer (`Decode ∘ Encode`). -/
theorem marshal_roundtrip (sig : Signature) :
    Unmarshal (Marshal sig) = some sig ∧ Decode (Encode sig) = some sig := by
  obtain ⟨r, e, s⟩ := sig
  have h1 : Unmarshal (Marshal ⟨r, e, s⟩) = some ⟨r, e, s⟩ := by
    show (match fieldBytesList (some (.arr (r.map .bytes))),
        fieldBytesList (some (.arr (s.map .bytes))),
        fieldBytes (some (.bytes e)) with
      | some rr, some ss, some ee => some (⟨rr, ee, ss⟩ : Signature)
      | _, _, _ => none) = some (⟨r, e, s⟩ : Signature)
    rw [show fieldBytesList (some (.arr (r.map .bytes))) = some r from by
        rw [fieldBytesList, jsonBytesList, mapM_jsonBytes],
      show fieldBytesList (some (.arr (s.map .bytes))) = some s from by
        rw [fieldBytesList, jsonBytesList, mapM_jsonBytes]]
    rfl
  exact ⟨h1, h1⟩

/-- C5 (amended): `Unmarshal` of a well-formed record that lacks one of the
three fields `R`, `S`, `E` succeeds — the missing field is left at its zero
value (nil), per `encoding/json` — and the signature decoded from each of
the three missing-field shapes is then rejected by `Verify` (`false`): a
missing `E` fails the empty-`e` check, a missing `R` fails the ring-size
check, and a missing `S` fails the ring-size or length-mismatch check. -/
theorem unmarshal_missing_field_behavior (hash : Bytes → Bytes) (m : Bytes)
    (r s : List Bytes) (e : Bytes) :
    Unmarshal (.obj [("R", .arr (r.map .bytes)), ("S", .arr (s.map .bytes))]) =
      some { ring := r, e := [], s := s } ∧
    Unmarshal (.obj [("S", .arr (s.map .bytes)), ("E", .bytes e)]) =
      some { ring := [], e := e, s := s } ∧
    Unmarshal (.obj [("R", .arr (r.map .bytes)), ("E", .bytes e)]) =
      some { ring := r, e := e, s := [] } ∧
    Verify hash (some { ring := r, e := [], s := s }) m = some false ∧
    Verify hash (some { ring := [], e := e, s := s }) m = some false ∧
    Verify hash (some { ring := r, e := e, s := [] }) m = some false := by
  refine ⟨?_, ?_, ?_, ?_, ?_, ?_⟩
  · show (match fieldBytesList (some (.arr (r.map .bytes))),
        fieldBytesList (some (.arr (s.map .bytes))),
        fieldBytes (none : Option Json) with
      | some rr, some ss, some ee => some (⟨rr, ee, ss⟩ : Signature)
      | _, _, _ => none) = some (⟨r, [], s⟩ : Signature)
    rw [show fieldBytesList (some (.arr (r.map .bytes))) = some r from by
        rw [fieldBytesList, jsonBytesList, mapM_jsonBytes],
      show fieldBytesList (some (.arr (s.map .bytes))) = some s from by
        rw [fieldBytesList, jsonBytesList, mapM_jsonBytes]]
    rfl
  · show (match fieldBytesList (none : Option Json),
        fieldBytesList (some (.arr (s.map .bytes))),
        fieldBytes (some (.bytes e)) with
      | some rr, some ss, some ee => some (⟨rr, ee, ss⟩ : Signature)
      | _, _, _ => none) = some (⟨[], e, s⟩ : Signature)
    rw [show fieldBytesList (some (.arr (s.map .bytes))) = some s from by
        rw [fieldBytesList, jsonBytesList, mapM_jsonBytes]]
    rfl
  · show (match fieldBytesList (some (.arr (r.map .bytes))),
        fieldBytesList (none : Option Json),
        fieldBytes (some (.bytes e)) with
      | some rr, some ss, some ee => some (⟨rr, ee, ss⟩ : Signature)
      | _, _, _ => none) = some (⟨r, e, []⟩ : Signature)
    rw [show fieldBytesList (some (.arr (r.map .bytes))) = some r from by
        rw [fieldBytesList, jsonBytesList, mapM_jsonBytes]]
    rfl
  · rw [Verify_some]
    dsimp only
    by_cases c1 : r.length < 2
    · rw [if_pos c1]
    · rw [if_neg c1]
      by_cases c2 : s.length ≠ r.length
      · rw [if_pos c2]
      · rw [if_neg c2, if_pos (List.length_nil : ([] : Bytes).length = 0)]
  · rw [Verify_some]
    dsimp only
    rw [if_pos (by simp : ([] : List Bytes).length < 2)]
  · rw [Verify_some]
    dsimp only
    by_cases c1 : r.length < 2
    · rw [if_pos c1]
    · rw [if_neg c1]
      rw [if_pos (by simp; omega : ([] : List Bytes).length ≠ r.length)]

/-- C4 (failing input): `Verify` on a structurally well-formed signature
whose ring members do not decode to curve points does not return `false`;
it crashes (`none` models the nil-pointer dereference after the unchecked
`elliptic.Unmarshal`). -/
theorem verify_crashes_on_undecodable_ring :
    Verify (fun _ => [2])
      (some { ring := [[0], [0]], e := [1], s := [[1], [1]] }) [1] = none ∧
    Verify (fun _ => [2])
      (some { ring := [[0], [0]], e := [1], s := [[1], [1]] }) [1] ≠
      some false := by
  decide

/-! ### Counterexamples and witnesses on concrete inputs -/

/-- C3 (counterexample): a successful `Sign` run — signer key `x = N-1`,
`ring[0] = x·G`, nonce `k = N-2`, closing challenge `e = 2` — emits at
`s[0]` the encoding of the integer `N`, which is *not* strictly less than
the curve order. -/
theorem sign_sr_can_exceed_order :
    (Sign (fun _ => [2]) (natToBytes (N - 1)) [N - 2, 5] [1]
      [encodePoint ((N - 1 : Nat) : ZMod N), encodePoint 7] 0).toOption =
      some { ring := [encodePoint ((N - 1 : Nat) : ZMod N), encodePoint 7],
             e := [2], s := [natToBytes N, natToBytes 5] } ∧
    ¬(bytesToNat (natToBytes N) < N) := by
  decide

/-- C10 (counterexample): a successful `Sign` run with a valid private
scalar `x = 5 ∈ [1, N-1]` and nonce `k = 5 ≥ 1` in which the closing
scalar is exactly zero (`k = e·x` with `e = 1`) — so the canonicalized
closing scalar is *not* strictly positive — yet `Sign` returns a signature
rather than any error (the zero check sits only in the negative branch). -/
theorem closing_scalar_zero_without_error :
    (Sign (fun _ => [1]) (natToBytes 5) [5, 3] [1]
      [encodePoint 5, encodePoint 3] 0).toOption =
      some { ring := [encodePoint 5, encodePoint 3], e := [1],
             s := [[], natToBytes 3] } ∧
    1 ≤ bytesToNat (natToBytes 5) ∧ bytesToNat (natToBytes 5) < N ∧
    bytesToNat ([] : Bytes) = 0 := by
  decide

/-- Witness for C1 at a concrete ring of two keys. -/
theorem sign_verify_complete_witness :
    bytesToNat (natToBytes 5) < N ∧
    Verify (fun _ => [2])
      (some { ring := [encodePoint 5, encodePoint 7], e := [2],
              s := [natToBytes (2 * N - 7), natToBytes 4] }) [1] = some true :=
  ⟨by decide,
   sign_verify_complete (fun _ => [2]) (fun _ => List.cons_ne_nil 2 [])
     (natToBytes 5) [3, 4] [1] [encodePoint 5, encodePoint 7] 0
     { ring := [encodePoint 5, encodePoint 7], e := [2],
       s := [natToBytes (2 * N - 7), natToBytes 4] }
     (by decide) (by decide) (by decide)⟩

/-- Witness for C2 at `k = 1`, `e = 2`, `x = 3` (negative branch). -/
theorem closeRing_canonicalization_witness :
    (3 : Nat) < N ∧ closeRing 1 2 3 = .ok ((1 : Int) - 2 * 3 + 2 * N) :=
  ⟨by decide,
   (((closeRing_canonicalization 1 2 3 (by decide)).2 (by decide)).2
     (by decide)).1⟩

/-- Witness for the amended C3 at the run of `sign_sr_can_exceed_order`. -/
theorem sign_sr_nonneg_contract_witness :
    bytesToNat (natToBytes (N - 1)) < N ∧
    ∃ kb d1 esF ssF d2 v,
      randomParam [N - 2, 5] = some (kb, d1) ∧
      loopFold (fun _ => [2]) [1]
        [encodePoint ((N - 1 : Nat) : ZMod N), encodePoint 7] 2
        ((List.range 1).map fun u => (0 + 1 + u) % 2)
        ((List.replicate 2 ([] : Bytes)).set ((0 + 1) % 2) ([2] : Bytes),
         List.replicate 2 ([] : Bytes), d1) = .ok (esF, ssF, d2) ∧
      closeRing (bytesToNat kb) (bytesToNat (esF.getD 0 []))
        (bytesToNat (natToBytes (N - 1))) = .ok v ∧
      1 ≤ bytesToNat kb ∧ bytesToNat kb < N ∧
      0 ≤ v ∧
      ({ ring := [encodePoint ((N - 1 : Nat) : ZMod N), encodePoint 7],
         e := [2],
         s := [natToBytes N, natToBytes 5] } : Signature).s.getD 0 [] =
        natToBytes v.natAbs ∧
      (v.natAbs : ZMod N) * G +
        (bytesToNat (esF.getD 0 []) : ZMod N) *
          ((bytesToNat (natToBytes (N - 1)) : ZMod N) * G) =
        (bytesToNat kb : ZMod N) * G :=
  ⟨by decide,
   sign_sr_nonneg_contract (fun _ => [2]) (natToBytes (N - 1)) [N - 2, 5] [1]
     [encodePoint ((N - 1 : Nat) : ZMod N), encodePoint 7] 0
     { ring := [encodePoint ((N - 1 : Nat) : ZMod N), encodePoint 7],
       e := [2], s := [natToBytes N, natToBytes 5] }
     (by decide) (by decide)⟩

/-- Witness for C6: an empty message with an out-of-range index yields
`emptyMessage`; an out-of-range index for a one-key ring yields
`invalidSignerIndex`, not `ringTooSmall`. -/
theorem sign_precondition_order_witness :
    Sign (fun _ => [2]) [] [] [] [encodePoint 5] 5 = .error .emptyMessage ∧
    Sign (fun _ => [2]) [] [] [1] [encodePoint 5] 5 =
      .error .invalidSignerIndex :=
  ⟨(sign_precondition_order (fun _ => [2]) [] [] [] [encodePoint 5] 5).1 rfl,
   (sign_precondition_order (fun _ => [2]) [] [] [1] [encodePoint 5] 5).2.1
     (by decide) (by decide)⟩

/-- Witness for C8: the zero draw is skipped, and the retried draw is in
`[1, N-1]`. -/
theorem randomParam_range_and_retry_witness :
    randomParam [0, 7] = randomParam [7] ∧
    1 ≤ bytesToNat (natToBytes 7) ∧ bytesToNat (natToBytes 7) < N :=
  ⟨randomParam_range_and_retry.2 0 [7] (by decide),
   (randomParam_range_and_retry.1 [7] (natToBytes 7) [] (by decide)).1,
   (randomParam_range_and_retry.1 [7] (natToBytes 7) [] (by decide)).2.1⟩

/-- Witness for C9 at a ring of size 2 with signer index 0. -/
theorem sign_loop_traversal_witness :
    (2 : Nat) ≤ 2 ∧ (0 : Nat) < 2 ∧
    signLoop (fun _ => [2]) [1] [encodePoint 5, encodePoint 7] 2 0 2 1
      ([[], []], [[], []], [4]) =
      loopFold (fun _ => [2]) [1] [encodePoint 5, encodePoint 7] 2
        (visits 2 0) ([[], []], [[], []], [4]) ∧
    (visits 2 0).length = 1 ∧ 0 ∉ visits 2 0 :=
  ⟨by decide, by decide,
   (sign_loop_traversal (fun _ => [2]) [1] [encodePoint 5, encodePoint 7] 2 0
     (by decide) (by decide)).1 ([[], []], [[], []], [4]),
   (sign_loop_traversal (fun _ => [2]) [1] [encodePoint 5, encodePoint 7] 2 0
     (by decide) (by decide)).2.1,
   (sign_loop_traversal (fun _ => [2]) [1] [encodePoint 5, encodePoint 7] 2 0
     (by decide) (by decide)).2.2.1⟩

/-- Witness for the amended C10 at the run of
`closing_scalar_zero_without_error`. -/
theorem signatureFailed_unreachable_witness :
    bytesToNat (natToBytes 5) < N ∧
    Sign (fun _ => [1]) (natToBytes 5) [5, 3] [1]
      [encodePoint 5, encodePoint 3] 0 ≠ .error .signatureFailed :=
  ⟨by decide,
   signatureFailed_unreachable (fun _ => [1]) (natToBytes 5) [5, 3] [1]
     [encodePoint 5, encodePoint 3] 0 (by decide)⟩

/-- C5 (counterexample): `Unmarshal` of a well-formed record that lacks the
`E` field *succeeds* with an incomplete signature (empty `e`), instead of
returning a decode error as the claim states. -/
theorem unmarshal_missing_field_succeeds :
    Unmarshal (.obj [("R", .arr [.bytes [1], .bytes [2]]),
                     ("S", .arr [.bytes [3], .bytes [4]])]) =
      some { ring := [[1], [2]], e := [], s := [[3], [4]] } ∧
    Unmarshal (.obj [("R", .arr [.bytes [1], .bytes [2]]),
                     ("S", .arr [.bytes [3], .bytes [4]])]) ≠ none := by
  exact ⟨rfl, by decide⟩
